import Mathlib

/-!
# Verification of the hring owned-buffer I/O layer and connection frame pump

Shallow embedding of `crates/hring-buffet/src/io.rs` (the `WriteOwned`
trait's default methods `write_all`, `writev`, `writev_all` and the
`BufOrSlice` helper type) and of `crates/httpwg/src/lib.rs` (the
background frame-reading loop of `Conn::new`, `Conn::write_frame` and
`Conn::handshake`).

Buffers are modelled as `List Nat` (one `Nat` per byte).  The behaviour of
the underlying `write` submission — which in the program is the kernel, or
the test stub — is modelled by a *schedule* `sched : Nat → WRes` giving the
outcome of the i-th `write` call: an I/O error, or a reported byte count
which is clamped to the number of bytes offered (a kernel write never
reports more than it was given).  A successful call with count `n`
transfers the first `n` offered bytes to the sink; the sink is threaded
through as an accumulating `List Nat`.
-/

/-- Outcome of one underlying `write` submission, chosen by the schedule:
either an I/O error or a raw reported byte count (clamped later). -/
inductive WRes where
  | ok (n : Nat)
  | err
deriving DecidableEq, Repr

/-- The error results `write_all` / `writev` / `writev_all` can produce:
`writeZero` models `std::io::ErrorKind::WriteZero`, `ioErr` a propagated
transport error. -/
inductive IoErr where
  | writeZero
  | ioErr
deriving DecidableEq, Repr

/-- `WriteOwned::write_all` from `io.rs`: repeatedly write the remaining
suffix `buf[written..len]`; a reported count of 0 aborts with `writeZero`.
Beyond the source, the embedding also accumulates the bytes the sink
received (`sink`) and the reported counts of the calls made (`trace`),
so that theorems can speak about both.  The schedule here never errors
(sizes only), matching the write stub of the spec's testable properties. -/
def write_all_go (sched : Nat → Nat) (buf : List Nat) (i written : Nat)
    (sink trace : List Nat) : Except IoErr Unit × List Nat × List Nat :=
  if h : written < buf.length then
    let offered := buf.length - written
    let n := min (sched i) offered
    if hn : n = 0 then
      (.error .writeZero, sink, trace ++ [n])
    else
      write_all_go sched buf (i + 1) (written + n)
        (sink ++ ((buf.drop written).take n)) (trace ++ [n])
  else
    (.ok (), sink, trace)
termination_by buf.length - written
decreasing_by
  have h1 : 1 ≤ n := Nat.one_le_iff_ne_zero.mpr hn
  omega

/-- `write_all` entry point: start at offset 0 with empty sink and trace. -/
def write_all (sched : Nat → Nat) (buf : List Nat) :
    Except IoErr Unit × List Nat × List Nat :=
  write_all_go sched buf 0 0 [] []

/-- Key dichotomy for `write_all_go`: either it succeeds having delivered
exactly the remaining suffix to the sink with every reported count nonzero,
or it fails with `writeZero` and some reported count is zero. -/
theorem write_all_go_spec (sched : Nat → Nat) (buf : List Nat) :
    ∀ i written sink trace, (0 : Nat) ∉ trace →
      (∃ tr2, write_all_go sched buf i written sink trace =
          (.ok (), sink ++ buf.drop written, tr2) ∧ (0 : Nat) ∉ tr2) ∨
      (∃ s2 tr2, write_all_go sched buf i written sink trace =
          (.error .writeZero, s2, tr2) ∧ (0 : Nat) ∈ tr2) := by
  intro i written
  induction' hm : buf.length - written using Nat.strong_induction_on
    with m ih generalizing i written
  intro sink trace htr
  rw [write_all_go]
  by_cases h : written < buf.length
  · simp only [h, dif_pos]
    by_cases hz : min (sched i) (buf.length - written) = 0
    · right
      refine ⟨sink, trace ++ [min (sched i) (buf.length - written)], ?_, ?_⟩
      · simp [hz]
      · simp [hz]
    · simp only [hz, dif_neg, not_false_iff]
      have hn1 : 1 ≤ min (sched i) (buf.length - written) :=
        Nat.one_le_iff_ne_zero.mpr hz
      have hlt : buf.length - (written + min (sched i) (buf.length - written)) < m := by
        omega
      have := ih _ hlt (i + 1) (written + min (sched i) (buf.length - written)) rfl
        (sink ++ (buf.drop written).take (min (sched i) (buf.length - written)))
        (trace ++ [min (sched i) (buf.length - written)])
        (by
          intro hc
          rcases List.mem_append.mp hc with hc | hc
          · exact htr hc
          · simp at hc; omega)
      rcases this with ⟨tr2, heq, hmem⟩ | ⟨s2, tr2, heq, hmem⟩
      · left
        refine ⟨tr2, ?_, hmem⟩
        rw [heq]
        have hdd : buf.drop (written + min (sched i) (buf.length - written)) =
            (buf.drop written).drop (min (sched i) (buf.length - written)) := by
          rw [List.drop_drop]
        rw [List.append_assoc, hdd, List.take_append_drop]
      · right
        exact ⟨s2, tr2, heq, hmem⟩
  · left
    have hd : buf.drop written = [] := List.drop_eq_nil_of_le (by omega)
    refine ⟨trace, ?_, htr⟩
    simp [h, hd]

/-- Under a schedule that always consumes at least one byte, `write_all_go`
always succeeds, delivering the remaining suffix. -/
theorem write_all_go_nonzero (sched : Nat → Nat) (hs : ∀ i, sched i ≠ 0)
    (buf : List Nat) :
    ∀ i written sink trace,
      ∃ tr2, write_all_go sched buf i written sink trace =
        (.ok (), sink ++ buf.drop written, tr2) := by
  intro i written
  induction' hm : buf.length - written using Nat.strong_induction_on
    with m ih generalizing i written
  intro sink trace
  rw [write_all_go]
  by_cases h : written < buf.length
  · simp only [h, dif_pos]
    have hz : ¬ min (sched i) (buf.length - written) = 0 := by
      have := hs i
      omega
    simp only [hz, dif_neg, not_false_iff]
    have hn1 : 1 ≤ min (sched i) (buf.length - written) := by omega
    have hlt : buf.length - (written + min (sched i) (buf.length - written)) < m := by
      omega
    obtain ⟨tr2, heq⟩ := ih _ hlt (i + 1)
      (written + min (sched i) (buf.length - written)) rfl
      (sink ++ (buf.drop written).take (min (sched i) (buf.length - written)))
      (trace ++ [min (sched i) (buf.length - written)])
    refine ⟨tr2, ?_⟩
    rw [heq]
    have hdd : buf.drop (written + min (sched i) (buf.length - written)) =
        (buf.drop written).drop (min (sched i) (buf.length - written)) := by
      rw [List.drop_drop]
    rw [List.append_assoc, hdd, List.take_append_drop]
  · have hd : buf.drop written = [] := List.drop_eq_nil_of_le (by omega)
    refine ⟨trace, ?_⟩
    simp [h, hd]

/-- C2: for every non-empty buffer and every schedule of per-call consumed
sizes, `write_all` delivers exactly the original bytes (in order) to the
sink whenever it succeeds; it succeeds if and only if every underlying
`write` call reported at least one byte of progress (a zero report while
data remains yields the `writeZero` error); and under a stub that consumes
a non-empty prefix on every call it does succeed and deliver. -/
theorem write_all_correct (sched : Nat → Nat) (buf : List Nat) (hne : buf ≠ []) :
    ((write_all sched buf).1 = .ok () → (write_all sched buf).2.1 = buf) ∧
    ((write_all sched buf).1 = .ok () ↔ (0 : Nat) ∉ (write_all sched buf).2.2) ∧
    ((∀ i, sched i ≠ 0) →
      (write_all sched buf).1 = .ok () ∧ (write_all sched buf).2.1 = buf) := by
  refine ⟨?_, ?_, ?_⟩
  · intro hok
    have := write_all_go_spec sched buf 0 0 [] [] (by simp)
    rcases this with ⟨tr2, heq, hmem⟩ | ⟨s2, tr2, heq, hmem⟩
    · unfold write_all
      rw [heq]
      simp
    · unfold write_all at hok
      rw [heq] at hok
      exact absurd hok (by simp)
  · have := write_all_go_spec sched buf 0 0 [] [] (by simp)
    rcases this with ⟨tr2, heq, hmem⟩ | ⟨s2, tr2, heq, hmem⟩
    · unfold write_all
      rw [heq]
      simp [hmem]
    · unfold write_all
      rw [heq]
      simp [hmem]
  · intro hs
    obtain ⟨tr2, heq⟩ := write_all_go_nonzero sched hs buf 0 0 [] []
    unfold write_all
    rw [heq]
    simp

/-- Witness for `write_all_correct` at the concrete buffer `[5, 6, 7]` and
the schedule that consumes 2 bytes per call. -/
theorem write_all_correct_witness :
    ((write_all (fun _ => 2) [5, 6, 7]).1 = .ok () →
      (write_all (fun _ => 2) [5, 6, 7]).2.1 = [5, 6, 7]) ∧
    ((write_all (fun _ => 2) [5, 6, 7]).1 = .ok () ↔
      (0 : Nat) ∉ (write_all (fun _ => 2) [5, 6, 7]).2.2) ∧
    ((∀ i, (fun _ : Nat => 2) i ≠ 0) →
      (write_all (fun _ => 2) [5, 6, 7]).1 = .ok () ∧
      (write_all (fun _ => 2) [5, 6, 7]).2.1 = [5, 6, 7]) :=
  write_all_correct (fun _ => 2) [5, 6, 7] (by decide)

/-- `BufOrSlice` from `io.rs`: either a whole buffer, or a buffer together
with the offset of its first not-yet-written byte (`b.slice(off..)` in the
source; the buffers here are fully initialized, so `bytes_init = length`). -/
inductive BufOrSlice where
  | buf (b : List Nat)
  | slice (b : List Nat) (off : Nat)
deriving DecidableEq, Repr

/-- The underlying buffer of a `BufOrSlice`. -/
def BufOrSlice.base : BufOrSlice → List Nat
  | .buf b => b
  | .slice b _ => b

/-- The recorded consumed-offset of a `BufOrSlice` (a plain `Buf` has
offset 0). -/
def BufOrSlice.offset : BufOrSlice → Nat
  | .buf _ => 0
  | .slice _ off => off

/-- `BufOrSlice::len` from `io.rs`: remaining (not yet consumed) length. -/
def BufOrSlice.len : BufOrSlice → Nat
  | .buf b => b.length
  | .slice b off => b.length - off

/-- The byte view an underlying `write` sees when handed this value: the
whole buffer, or the suffix starting at the recorded offset (this is the
`IoBuf` impl of `BufOrSlice`, `stable_ptr`/`bytes_init` of the slice). -/
def BufOrSlice.view : BufOrSlice → List Nat
  | .buf b => b
  | .slice b off => b.drop off

/-- `BufOrSlice::consume` from `io.rs`: record that the first `n` remaining
bytes were written.  `Buf b ↦ Slice (b, n)`; `Slice (b, off) ↦
Slice (b, off + n)` (the source re-slices the inner buffer at
`s.begin() + n`).  The source's `assert!(n <= self.len())` is a
precondition, carried as a hypothesis by the theorems below. -/
def BufOrSlice.consume : BufOrSlice → Nat → BufOrSlice
  | .buf b, n => .slice b n
  | .slice b off, n => .slice b (off + n)

/-- Whether a `BufOrSlice` is in the `Slice` arm. -/
def BufOrSlice.isSliceB : BufOrSlice → Bool
  | .buf _ => false
  | .slice _ _ => true

theorem BufOrSlice.len_eq_view_length (x : BufOrSlice) (hx : x.offset ≤ x.base.length) :
    x.len = x.view.length := by
  cases x <;> simp [BufOrSlice.len, BufOrSlice.view]

theorem BufOrSlice.view_consume (x : BufOrSlice) (n : Nat) :
    (x.consume n).view = x.view.drop n := by
  cases x with
  | buf b => simp [BufOrSlice.consume, BufOrSlice.view]
  | slice b off =>
    simp [BufOrSlice.consume, BufOrSlice.view, List.drop_drop, Nat.add_comm]

/-- C9: `consume` only ever produces a `Slice` (so the transitions are
`Buf → Slice` and `Slice → Slice`), the recorded offset advances by exactly
`n` (hence is monotonically non-decreasing), and — given the invariant held
before and `n` does not exceed the remaining length — the new offset never
exceeds the buffer's initialized length; the underlying buffer itself is
unchanged. -/
theorem BufOrSlice.consume_invariant (x : BufOrSlice) (n : Nat)
    (hinv : x.offset ≤ x.base.length) (hn : n ≤ x.len) :
    (x.consume n).isSliceB = true ∧
    (x.consume n).offset = x.offset + n ∧
    x.offset ≤ (x.consume n).offset ∧
    (x.consume n).offset ≤ (x.consume n).base.length ∧
    (x.consume n).base = x.base := by
  cases x with
  | buf b =>
    simp only [BufOrSlice.consume, BufOrSlice.isSliceB, BufOrSlice.offset,
      BufOrSlice.base, BufOrSlice.len] at hinv hn ⊢
    refine ⟨?_, ?_, ?_, ?_, ?_⟩ <;> first | trivial | omega
  | slice b off =>
    simp only [BufOrSlice.consume, BufOrSlice.isSliceB, BufOrSlice.offset,
      BufOrSlice.base, BufOrSlice.len] at hinv hn ⊢
    refine ⟨?_, ?_, ?_, ?_, ?_⟩ <;> first | trivial | omega

/-- Witness for `BufOrSlice.consume_invariant` at the concrete value
`Slice ([1, 2, 3], 1)` consuming 1 byte. -/
theorem BufOrSlice.consume_invariant_witness :
    ((BufOrSlice.slice [1, 2, 3] 1).consume 1).isSliceB = true ∧
    ((BufOrSlice.slice [1, 2, 3] 1).consume 1).offset =
      (BufOrSlice.slice [1, 2, 3] 1).offset + 1 ∧
    (BufOrSlice.slice [1, 2, 3] 1).offset ≤
      ((BufOrSlice.slice [1, 2, 3] 1).consume 1).offset ∧
    ((BufOrSlice.slice [1, 2, 3] 1).consume 1).offset ≤
      ((BufOrSlice.slice [1, 2, 3] 1).consume 1).base.length ∧
    ((BufOrSlice.slice [1, 2, 3] 1).consume 1).base =
      (BufOrSlice.slice [1, 2, 3] 1).base :=
  BufOrSlice.consume_invariant (BufOrSlice.slice [1, 2, 3] 1) 1
    (by decide) (by decide)

/-- Unconditionally, a `BufOrSlice`'s remaining length equals the length of
the byte view a `write` would see. -/
theorem BufOrSlice.len_view (x : BufOrSlice) : x.len = x.view.length := by
  cases x <;> simp [BufOrSlice.len, BufOrSlice.view]

/-- Sum of the view lengths (`bytes_init`) of a buffer list. -/
def sumLen {α : Type} (vw : α → List Nat) (l : List α) : Nat :=
  (l.map (fun b => (vw b).length)).sum

/-- `WriteOwned::writev` from `io.rs`, generic in the buffer type `B`
(here `α` with its `IoBuf` view `vw`).  Writes elements sequentially: a
zero report is a `writeZero` error, an I/O error is propagated, a partial
write stops with the cumulative count, a full write continues.  In every
case the full list of buffers (each pushed into `out_list`, the remainder
appended by `out_list.extend(list)`) is returned.  The embedding also
returns the bytes the sink received and the next call index. -/
def writev {α : Type} (vw : α → List Nat) (sched : Nat → WRes) :
    Nat → List α → Except IoErr Nat × List α × List Nat × Nat
  | i, [] => (.ok 0, [], [], i)
  | i, buf :: rest =>
    match sched i with
    | .err => (.error .ioErr, buf :: rest, [], i + 1)
    | .ok raw =>
      if min raw (vw buf).length = 0 then
        (.error .writeZero, buf :: rest, [], i + 1)
      else if min raw (vw buf).length < (vw buf).length then
        (.ok (min raw (vw buf).length), buf :: rest,
          (vw buf).take (min raw (vw buf).length), i + 1)
      else
        match writev vw sched (i + 1) rest with
        | (res, out, sink, i2) =>
          (res.map (fun t => min raw (vw buf).length + t),
            buf :: out, vw buf ++ sink, i2)

/-- `writev` always returns ownership of every input element, in order. -/
theorem writev_out_eq {α : Type} (vw : α → List Nat) (sched : Nat → WRes) :
    ∀ i (list : List α), (writev vw sched i list).2.1 = list := by
  intro i list
  induction list generalizing i with
  | nil => simp [writev]
  | cons buf rest ih =>
    rw [writev]
    cases sched i with
    | err => simp
    | ok raw =>
      by_cases h0 : min raw (vw buf).length = 0
      · simp [h0]
      · by_cases hlt : min raw (vw buf).length < (vw buf).length
        · simp [h0, hlt]
        · simp only [h0, hlt, if_neg, if_false]
          have := ih (i + 1)
          cases hw : writev vw sched (i + 1) rest with
          | mk res r2 =>
            simp only [hw] at this ⊢
            simp [this]

/-- The cumulative count `writev` reports never exceeds the sum of the
input views' lengths. -/
theorem writev_total_le {α : Type} (vw : α → List Nat) (sched : Nat → WRes) :
    ∀ i (list : List α) t, (writev vw sched i list).1 = .ok t →
      t ≤ sumLen vw list := by
  intro i list
  induction list generalizing i with
  | nil =>
    intro t ht
    simp [writev] at ht
    simp [sumLen, ← ht]
  | cons buf rest ih =>
    intro t ht
    rw [writev] at ht
    cases hs : sched i with
    | err => simp [hs] at ht
    | ok raw =>
      simp only [hs] at ht
      by_cases h0 : min raw (vw buf).length = 0
      · simp [h0] at ht
      · by_cases hlt : min raw (vw buf).length < (vw buf).length
        · simp [h0, hlt] at ht
          simp [sumLen]
          omega
        · simp only [h0, hlt, if_neg, if_false] at ht
          cases hw : writev vw sched (i + 1) rest with
          | mk res r2 =>
            simp only [hw] at ht
            cases res with
            | error e => simp [Except.map] at ht
            | ok t2 =>
              simp [Except.map] at ht
              have h2 : t2 ≤ sumLen vw rest := by
                apply ih (i + 1)
                rw [hw]
              simp [sumLen] at h2 ⊢
              omega

/-- When `writev` reports `Ok t`, the sink received exactly the first `t`
bytes of the concatenation of the input views. -/
theorem writev_sink_take {α : Type} (vw : α → List Nat) (sched : Nat → WRes) :
    ∀ i (list : List α) t, (writev vw sched i list).1 = .ok t →
      (writev vw sched i list).2.2.1 = ((list.map vw).flatten).take t := by
  intro i list
  induction list generalizing i with
  | nil =>
    intro t ht
    simp [writev] at ht ⊢
  | cons buf rest ih =>
    intro t ht
    rw [writev] at ht ⊢
    cases hs : sched i with
    | err => simp [hs] at ht
    | ok raw =>
      simp only [hs] at ht ⊢
      by_cases h0 : min raw (vw buf).length = 0
      · simp [h0] at ht
      · by_cases hlt : min raw (vw buf).length < (vw buf).length
        · simp only [h0, hlt, if_neg, if_pos, if_true, if_false] at ht ⊢
          simp at ht
          subst ht
          simp only [List.map_cons, List.flatten_cons]
          rw [List.take_append_of_le_length (by omega)]
        · simp only [h0, hlt, if_neg, if_false] at ht ⊢
          cases hw : writev vw sched (i + 1) rest with
          | mk res r2 =>
            simp only [hw] at ht ⊢
            cases res with
            | error e => simp [Except.map] at ht
            | ok t2 =>
              simp only [Except.map] at ht
              have heq : t = min raw (vw buf).length + t2 := by
                cases ht; rfl
              have hsink : r2.2.1 = ((rest.map vw).flatten).take t2 := by
                have := ih (i + 1) t2
                rw [hw] at this
                exact this rfl
              have hfull : min raw (vw buf).length = (vw buf).length := by omega
              simp only [heq, hfull, List.map_cons, List.flatten_cons]
              rw [List.take_append, hsink]

/-- A schedule that always reports at least one byte (and never errors). -/
def GoodSched (sched : Nat → WRes) : Prop :=
  ∀ j, ∃ k, sched j = .ok k ∧ 1 ≤ k

/-- Under a `GoodSched`, `writev` on a non-empty list of non-empty views
reports `Ok t` with `1 ≤ t`. -/
theorem writev_good_ok {α : Type} (vw : α → List Nat) (sched : Nat → WRes)
    (hg : GoodSched sched) :
    ∀ i (list : List α), list ≠ [] → (∀ x ∈ list, vw x ≠ []) →
      ∃ t, (writev vw sched i list).1 = .ok t ∧ 1 ≤ t := by
  intro i list
  induction list generalizing i with
  | nil => intro h; exact absurd rfl h
  | cons buf rest ih =>
    intro _ hviews
    obtain ⟨k, hk, hk1⟩ := hg i
    have hbuf : vw buf ≠ [] := hviews buf (by simp)
    have hlen : 1 ≤ (vw buf).length := by
      cases hv : vw buf with
      | nil => exact absurd hv hbuf
      | cons a l => simp
    have hmin : 1 ≤ min k (vw buf).length := by omega
    rw [writev]
    simp only [hk]
    by_cases hlt : min k (vw buf).length < (vw buf).length
    · refine ⟨min k (vw buf).length, ?_, hmin⟩
      simp only [if_neg (by omega : ¬ min k (vw buf).length = 0), if_pos hlt]
    · simp only [if_neg (by omega : ¬ min k (vw buf).length = 0), if_neg hlt]
      cases hrest : rest with
      | nil =>
        refine ⟨min k (vw buf).length, ?_, hmin⟩
        simp [writev, Except.map]
      | cons y ys =>
        subst hrest
        obtain ⟨t2, ht2, ht21⟩ := ih (i + 1) (by simp)
          (by intro x hx; exact hviews x (by simp [hx]))
        refine ⟨min k (vw buf).length + t2, ?_, by omega⟩
        rw [ht2]
        simp [Except.map]

/-- C10: for every input list and every behaviour of the underlying write
(any schedule of counts and errors), `writev` returns ownership of every
input element — including fully-written ones — in the original order, and
any cumulative count it reports is at most the sum of the input views'
initialized lengths. -/
theorem writev_ownership_and_bound {α : Type} (vw : α → List Nat)
    (sched : Nat → WRes) (i : Nat) (list : List α) :
    (writev vw sched i list).2.1 = list ∧
    (∀ t, (writev vw sched i list).1 = .ok t → t ≤ sumLen vw list) :=
  ⟨writev_out_eq vw sched i list, fun t ht => writev_total_le vw sched i list t ht⟩

/-- Witness for `writev_ownership_and_bound` at the list `[[1, 2], [3]]`
under the 1-byte-per-call schedule (which reports `Ok 1`). -/
theorem writev_ownership_and_bound_witness :
    (writev (fun b => b) (fun _ => WRes.ok 1) 0 [[1, 2], [3]]).2.1 = [[1, 2], [3]] ∧
    (1 : Nat) ≤ sumLen (fun b => b) [[1, 2], [3]] :=
  ⟨(writev_ownership_and_bound (fun b => b) (fun _ => WRes.ok 1) 0 [[1, 2], [3]]).1,
   (writev_ownership_and_bound (fun b => b) (fun _ => WRes.ok 1) 0 [[1, 2], [3]]).2
     1 rfl⟩

/-- Counterexample to C5 as stated: with the all-zero schedule on the list
`[[1], [2]]`, `writev` does fail with `writeZero`, but the element after
the zero-writing one **is** returned to the caller — the returned list is
the whole input `[[1], [2]]`, not `[[1]]`. -/
theorem writev_zero_keeps_rest_counterexample :
    (writev (fun b => b) (fun _ => WRes.ok 0) 0 [[1], [2]]).1 =
        .error .writeZero ∧
    (writev (fun b => b) (fun _ => WRes.ok 0) 0 [[1], [2]]).2.1 = [[1], [2]] ∧
    (writev (fun b => b) (fun _ => WRes.ok 0) 0 [[1], [2]]).2.1 ≠ [[1]] := by
  refine ⟨rfl, rfl, by decide⟩

/-- C5 (amended): when the underlying write fully consumes each element of
a prefix `pre` and then reports zero bytes on the next element `buf`,
`writev` returns a write-zero error together with ownership of **all**
elements — the prefix, the zero-writing element, and every element after
it — in the original order. -/
theorem writev_write_zero_returns_all {α : Type} (vw : α → List Nat)
    (sched : Nat → WRes) (i : Nat) (pre post : List α) (buf : α)
    (hfull : ∀ j (hj : j < pre.length), ∃ r, sched (i + j) = .ok r ∧
      1 ≤ (vw (pre.get ⟨j, hj⟩)).length ∧ (vw (pre.get ⟨j, hj⟩)).length ≤ r)
    (hzero : ∃ r, sched (i + pre.length) = .ok r ∧
      min r (vw buf).length = 0) :
    (writev vw sched i (pre ++ buf :: post)).1 = .error .writeZero ∧
    (writev vw sched i (pre ++ buf :: post)).2.1 = pre ++ buf :: post := by
  refine ⟨?_, writev_out_eq vw sched i (pre ++ buf :: post)⟩
  induction pre generalizing i with
  | nil =>
    obtain ⟨r, hr, hmin⟩ := hzero
    simp only [Nat.add_zero, List.length_nil] at hr hmin
    rw [List.nil_append, writev]
    simp only [hr, hmin, if_pos]
  | cons p pre ih =>
    obtain ⟨r, hr, h1, h2⟩ := hfull 0 (by simp)
    simp only [Nat.add_zero, List.get] at hr h1 h2
    have hminp : min r (vw p).length = (vw p).length := by omega
    rw [List.cons_append, writev]
    simp only [hr, hminp]
    rw [if_neg (by omega), if_neg (by omega)]
    have hrec := ih (i + 1)
      (by
        intro j hj
        obtain ⟨r2, hr2, hb1, hb2⟩ := hfull (j + 1) (by simp; omega)
        refine ⟨r2, ?_, hb1, hb2⟩
        rw [← hr2]
        congr 1
        omega)
      (by
        obtain ⟨r2, hr2, hm2⟩ := hzero
        refine ⟨r2, ?_, hm2⟩
        rw [← hr2]
        congr 1
        simp
        omega)
    cases hw : writev vw sched (i + 1) (pre ++ buf :: post) with
    | mk res r2 =>
      rw [hw] at hrec
      have hres : res = Except.error IoErr.writeZero := hrec
      rw [hres]
      rfl

/-- Witness for `writev_write_zero_returns_all`: the first call fully
writes `[7]`, the second reports zero on `[5]`; the element `[9]` after
the zero-writing one is still returned. -/
theorem writev_write_zero_returns_all_witness :
    (writev (fun b => b) (fun j => if j = 0 then .ok 1 else .ok 0) 0
        ([[7]] ++ [5] :: [[9]])).1 = .error .writeZero ∧
    (writev (fun b => b) (fun j => if j = 0 then .ok 1 else .ok 0) 0
        ([[7]] ++ [5] :: [[9]])).2.1 = [[7]] ++ [5] :: [[9]] :=
  writev_write_zero_returns_all (fun b => b)
    (fun j => if j = 0 then .ok 1 else .ok 0) 0 [[7]] [[9]] [5]
    (by
      intro j hj
      have hj0 : j = 0 := by simp at hj; exact hj
      subst hj0
      exact ⟨1, rfl, by simp, by simp⟩)
    ⟨0, rfl, by decide⟩

/-- The distribution pass at the end of each `writev_all` round
(`list.into_iter().filter_map(...)` in `io.rs`): walk the returned
elements left to right; while `n` is nonzero, an element fully covered by
`n` is dropped (and its length subtracted from `n`), the first partially
covered element is replaced by its consumed form (and `n` set to 0), and
all later elements are kept unchanged.  Returns the new list and the
residue of `n` (the source then runs `assert_eq!(n, 0)` on the residue). -/
def distribute : Nat → List BufOrSlice → List BufOrSlice × Nat
  | n, [] => ([], n)
  | n, item :: rest =>
    if n = 0 then
      ((item :: (distribute 0 rest).1), (distribute 0 rest).2)
    else if item.len ≤ n then
      distribute (n - item.len) rest
    else
      ((item.consume n :: (distribute 0 rest).1), (distribute 0 rest).2)

theorem distribute_zero (l : List BufOrSlice) : distribute 0 l = (l, 0) := by
  induction l with
  | nil => rfl
  | cons x rest ih => simp [distribute, ih]

/-- The count reported by a successful `writev` is exactly consumable by
the distribution pass over the returned elements: the residue is 0, the
remaining views are exactly the input bytes with the first `t` dropped,
non-emptiness of the views is preserved, and the total remaining length
shrinks by exactly `t`. -/
theorem writev_distribute (sched : Nat → WRes) :
    ∀ i (list : List BufOrSlice) t,
      (writev BufOrSlice.view sched i list).1 = .ok t →
      (distribute t list).2 = 0 ∧
      ((distribute t list).1.map BufOrSlice.view).flatten =
        ((list.map BufOrSlice.view).flatten).drop t ∧
      ((∀ x ∈ list, x.view ≠ []) → ∀ x ∈ (distribute t list).1, x.view ≠ []) ∧
      sumLen BufOrSlice.view (distribute t list).1 =
        sumLen BufOrSlice.view list - t := by
  intro i list
  induction list generalizing i with
  | nil =>
    intro t ht
    simp [writev] at ht
    subst ht
    simp [distribute, sumLen]
  | cons buf rest ih =>
    intro t ht
    rw [writev] at ht
    cases hs : sched i with
    | err => simp [hs] at ht
    | ok raw =>
      simp only [hs] at ht
      by_cases h0 : min raw buf.view.length = 0
      · simp [h0] at ht
      · by_cases hlt : min raw buf.view.length < buf.view.length
        · simp only [h0, hlt, if_neg, if_pos, if_true, if_false] at ht
          simp only [Except.ok.injEq] at ht
          subst ht
          have hlenv : buf.len = buf.view.length := BufOrSlice.len_view buf
          rw [distribute]
          rw [if_neg h0, if_neg (by omega)]
          refine ⟨?_, ?_, ?_, ?_⟩
          · simp [distribute_zero]
          · simp only [distribute_zero, List.map_cons, List.flatten_cons,
              BufOrSlice.view_consume]
            rw [List.drop_append_of_le_length (by omega)]
          · intro hnz x hx
            simp only [distribute_zero] at hx
            rcases List.mem_cons.mp hx with hx | hx
            · subst hx
              rw [BufOrSlice.view_consume]
              intro hcon
              have := congrArg List.length hcon
              simp at this
              omega
            · exact hnz x (by simp [hx])
          · simp only [distribute_zero, sumLen, List.map_cons, List.sum_cons,
              BufOrSlice.view_consume]
            simp
            omega
        · simp only [h0, hlt, if_neg, if_false] at ht
          cases hw : writev BufOrSlice.view sched (i + 1) rest with
          | mk res r2 =>
            rw [hw] at ht
            cases res with
            | error e => simp [Except.map] at ht
            | ok t2 =>
              simp only [Except.map, Except.ok.injEq] at ht
              subst ht
              have hfull : min raw buf.view.length = buf.view.length := by omega
              have hlenv : buf.len = buf.view.length := BufOrSlice.len_view buf
              obtain ⟨ihz, ihflat, ihne, ihsum⟩ := by
                have := ih (i + 1) t2
                rw [hw] at this
                exact this rfl
              rw [distribute]
              rw [if_neg (by omega), if_pos (by omega)]
              have harg : min raw buf.view.length + t2 - buf.len = t2 := by omega
              rw [harg]
              refine ⟨ihz, ?_, ?_, ?_⟩
              · rw [ihflat]
                simp only [List.map_cons, List.flatten_cons]
                rw [hfull, List.drop_append]
              · intro hnz x hx
                exact ihne (fun y hy => hnz y (by simp [hy])) x hx
              · rw [ihsum]
                simp only [sumLen, List.map_cons, List.sum_cons]
                omega

/-- Outcome of a `writev_all` run.  `ok`/`errWriteZero`/`errIo` mirror the
source's `io::Result<()>`; `assertFail` marks the source's
`assert_eq!(n, 0)` firing after a distribution pass; `outOfFuel` is the
embedding's marker for exhausting the (sufficiently large) loop budget. -/
inductive WaRes where
  | ok
  | errWriteZero
  | errIo
  | assertFail
  | outOfFuel
deriving DecidableEq, Repr

/-- `WriteOwned::writev_all` loop body from `io.rs`: while the list is
non-empty, call `writev`, fail on error or on a zero total, distribute the
reported count over the returned elements, check the residue with
`assert_eq!(n, 0)`, and loop on the remaining elements.  `fuel` bounds the
number of iterations (the entry point supplies more than enough). -/
def writev_all_go (sched : Nat → WRes) :
    Nat → Nat → List BufOrSlice → List Nat → WaRes × List Nat
  | 0, _, list, sink =>
    if list.isEmpty then (.ok, sink) else (.outOfFuel, sink)
  | fuel + 1, i, list, sink =>
    if list.isEmpty then (.ok, sink)
    else
      match writev BufOrSlice.view sched i list with
      | (res, out, s, i2) =>
        match res with
        | .error .writeZero => (.errWriteZero, sink ++ s)
        | .error .ioErr => (.errIo, sink ++ s)
        | .ok n =>
          if n = 0 then (.errWriteZero, sink ++ s)
          else
            match distribute n out with
            | (out2, residue) =>
              if residue ≠ 0 then (.assertFail, sink ++ s)
              else writev_all_go sched fuel i2 out2 (sink ++ s)

/-- `writev_all` entry point: wrap each buffer in `BufOrSlice::Buf` and run
the loop with ample fuel (one more than the total byte count, which the
termination argument below shows is never exhausted on success paths). -/
def writev_all (sched : Nat → WRes) (bufs : List (List Nat)) :
    WaRes × List Nat :=
  writev_all_go sched ((bufs.map List.length).sum + 1) 0
    (bufs.map BufOrSlice.buf) []

/-- C6: the `assert_eq!(n, 0)` at the end of each distribution pass of
`writev_all` never fires — for every schedule (hence every count `writev`
can return under its contract), every list, every fuel and every starting
state, the loop never returns the `assertFail` marker; in particular
`writev_all` itself never does. -/
theorem writev_all_assert_never_fires (sched : Nat → WRes) :
    (∀ fuel i list sink,
      (writev_all_go sched fuel i list sink).1 ≠ .assertFail) ∧
    (∀ bufs, (writev_all sched bufs).1 ≠ .assertFail) := by
  have hgo : ∀ fuel i list sink,
      (writev_all_go sched fuel i list sink).1 ≠ .assertFail := by
    intro fuel
    induction fuel with
    | zero =>
      intro i list sink
      rw [writev_all_go]
      by_cases h : list.isEmpty
      · simp [h]
      · simp [h]
    | succ fuel ih =>
      intro i list sink
      rw [writev_all_go]
      by_cases h : list.isEmpty
      · simp [h]
      · rw [if_neg (by simp [h])]
        cases hw : writev BufOrSlice.view sched i list with
        | mk res r2 =>
          obtain ⟨out, s, i2⟩ := r2
          cases res with
          | error e => cases e <;> simp
          | ok n =>
            by_cases hn : n = 0
            · simp [hn]
            · simp only [hn, if_neg, if_false, not_false_eq_true]
              have hout : out = list := by
                have := writev_out_eq BufOrSlice.view sched i list
                rw [hw] at this
                exact this
              have hres : (distribute n out).2 = 0 := by
                rw [hout]
                have := writev_distribute sched i list n
                rw [hw] at this
                exact (this rfl).1
              cases hd : distribute n out with
              | mk out2 residue =>
                rw [hd] at hres
                have hres2 : residue = 0 := hres
                subst hres2
                simpa using ih i2 out2 (sink ++ s)
  exact ⟨hgo, fun bufs => hgo _ _ _ _⟩

/-- Loop invariant for `writev_all` under a schedule that always reports at
least one byte: with fuel at least the total remaining byte count, the loop
succeeds and appends exactly the concatenation of the remaining views to
the sink. -/
theorem writev_all_go_good (sched : Nat → WRes) (hg : GoodSched sched) :
    ∀ fuel i (list : List BufOrSlice) sink,
      (∀ x ∈ list, x.view ≠ []) →
      sumLen BufOrSlice.view list ≤ fuel →
      writev_all_go sched fuel i list sink =
        (.ok, sink ++ (list.map BufOrSlice.view).flatten) := by
  intro fuel
  induction fuel with
  | zero =>
    intro i list sink hne hsum
    cases list with
    | nil => simp [writev_all_go]
    | cons x rest =>
      exfalso
      have hx : x.view ≠ [] := hne x (by simp)
      have h1 : 1 ≤ x.view.length := by
        cases hv : x.view with
        | nil => exact absurd hv hx
        | cons a l => simp
      simp only [sumLen, List.map_cons, List.sum_cons] at hsum
      omega
  | succ fuel ih =>
    intro i list sink hne hsum
    by_cases hemp : list.isEmpty
    · have hnil : list = [] := by
        cases list with
        | nil => rfl
        | cons x r => simp at hemp
      subst hnil
      simp [writev_all_go]
    · rw [writev_all_go, if_neg (by simp [hemp])]
      have hlist_ne : list ≠ [] := by
        intro hc
        subst hc
        simp at hemp
      obtain ⟨t, ht, ht1⟩ := writev_good_ok BufOrSlice.view sched hg i list
        hlist_ne hne
      have hout := writev_out_eq BufOrSlice.view sched i list
      have hsink := writev_sink_take BufOrSlice.view sched i list t ht
      have hdist := writev_distribute sched i list t ht
      have htle := writev_total_le BufOrSlice.view sched i list t ht
      cases hw : writev BufOrSlice.view sched i list with
      | mk res r2 =>
        obtain ⟨out, s, i2⟩ := r2
        rw [hw] at ht hout hsink
        simp only at ht hout hsink
        have hres : res = .ok t := ht
        subst hres
        subst hout
        cases hd : distribute t out with
        | mk out2 residue =>
          obtain ⟨hz, hflat, hne2, hsum2⟩ := hdist
          rw [hd] at hz hflat hne2 hsum2
          have hres2 : residue = 0 := hz
          subst hres2
          have hsum3 : sumLen BufOrSlice.view out2 ≤ fuel := by
            have : sumLen BufOrSlice.view ((out2, 0) : List BufOrSlice × Nat).1 =
                sumLen BufOrSlice.view out - t := hsum2
            simp only at this
            omega
          have hflat2 : (out2.map BufOrSlice.view).flatten =
              ((out.map BufOrSlice.view).flatten).drop t := hflat
          have hrec := ih i2 out2 (sink ++ s)
            (fun x hx => hne2 hne x hx) hsum3
          simp only [hd, if_neg (show ¬ t = 0 by omega)]
          rw [if_neg (by simp)]
          rw [hrec, hflat2, hsink]
          rw [List.append_assoc, List.take_append_drop]

/-- C1: for every list of (non-empty) buffers and every schedule of
partial-write sizes that always makes at least one byte of progress,
`writev_all` returns success and the sink receives exactly the
concatenation of all input buffers' bytes, in order, with no byte lost
or duplicated. -/
theorem writev_all_delivers (sched : Nat → WRes) (bufs : List (List Nat))
    (hg : GoodSched sched) (hne : ∀ b ∈ bufs, b ≠ []) :
    writev_all sched bufs = (.ok, bufs.flatten) := by
  unfold writev_all
  have h1 : ∀ x ∈ bufs.map BufOrSlice.buf, x.view ≠ [] := by
    intro x hx
    obtain ⟨b, hb, rfl⟩ := List.mem_map.mp hx
    simpa [BufOrSlice.view] using hne b hb
  have h2 : sumLen BufOrSlice.view (bufs.map BufOrSlice.buf) =
      (bufs.map List.length).sum := by
    unfold sumLen
    rw [List.map_map]
    rfl
  rw [writev_all_go_good sched hg _ 0 _ [] h1 (by omega)]
  rw [List.map_map]
  have hcomp : BufOrSlice.view ∘ BufOrSlice.buf = id := rfl
  rw [hcomp, List.map_id]
  simp

/-- Witness for `writev_all_delivers` at `[[1, 2], [3]]` under the
1-byte-per-call schedule. -/
theorem writev_all_delivers_witness :
    writev_all (fun _ => WRes.ok 1) [[1, 2], [3]] = (.ok, [1, 2, 3]) := by
  have := writev_all_delivers (fun _ => WRes.ok 1) [[1, 2], [3]]
    (fun _ => ⟨1, rfl, Nat.le_refl 1⟩) (by decide)
  simpa using this

/-- Witness for `writev_all_assert_never_fires`: a concrete run of
`writev_all` does not return the assertion-failure marker. -/
theorem writev_all_assert_never_fires_witness :
    (writev_all (fun _ => WRes.ok 1) [[1]]).1 ≠ WaRes.assertFail :=
  (writev_all_assert_never_fires (fun _ => WRes.ok 1)).2 [[1]]

/-- Modelled from the spec: the external codec's `Frame` header fields
(declared payload length, type tag, flags, stream id) — the
`fluke_h2_parse::Frame` type consumed by `httpwg`, which is not part of
this repository's sources. -/
structure Frame where
  len : Nat
  frameType : Nat
  flags : Nat
  streamId : Nat
deriving DecidableEq, Repr

/-- Result of the external codec's header parse: a complete header plus
the remaining bytes, or "need more data". -/
inductive ParseRes where
  | incomplete
  | ok (f : Frame) (rest : List Nat)
deriving DecidableEq, Repr

/-- Modelled from the spec: `Frame::parse` of the external codec over the
buffered bytes.  Per the spec's wire format, a frame header is 9 bytes:
3-byte big-endian length, 1-byte type, 1-byte flags, 1 reserved bit and a
31-bit stream id; with fewer than 9 bytes buffered the parse reports
"need more data".  The codec's decode-error arm is left unmodelled (the
spec does not give its trigger condition and no claim depends on it). -/
def Frame.header (bytes : List Nat) : Frame :=
  { len := bytes.getD 0 0 * 65536 + bytes.getD 1 0 * 256 + bytes.getD 2 0,
    frameType := bytes.getD 3 0,
    flags := bytes.getD 4 0,
    streamId := bytes.getD 5 0 % 128 * 16777216 + bytes.getD 6 0 * 65536 +
      bytes.getD 7 0 * 256 + bytes.getD 8 0 }

/-- Modelled from the spec: `Frame::parse` needs 9 buffered bytes for a
complete header; with fewer it reports "need more data". -/
def Frame.parse (bytes : List Nat) : ParseRes :=
  if 9 ≤ bytes.length then .ok (Frame.header bytes) (bytes.drop 9)
  else .incomplete

/-- Greedy frame decomposition of a byte stream (the specification-side
view of what the read loop should emit): repeatedly parse a header and
slice off its declared payload while both are complete; return the emitted
frames and the leftover bytes of the final, incomplete frame (if any).
Structured with explicit fuel so that it evaluates by reduction; each step
consumes at least 9 bytes, so any fuel above the byte count is enough. -/
def framesOfGo : Nat → List Nat → List (Frame × List Nat) × List Nat
  | 0, bytes => ([], bytes)
  | fuel + 1, bytes =>
    match Frame.parse bytes with
    | .incomplete => ([], bytes)
    | .ok f rest =>
      if f.len ≤ rest.length then
        match framesOfGo fuel (rest.drop f.len) with
        | (fs, leftover) => ((f, rest.take f.len) :: fs, leftover)
      else ([], bytes)

/-- `framesOf bytes`: greedy decomposition with ample fuel. -/
def framesOf (bytes : List Nat) : List (Frame × List Nat) × List Nat :=
  framesOfGo (bytes.length + 1) bytes

/-- The inner payload loop of the read loop in `Conn::new` (`httpwg`):
`while res_buf.len() < frame_len` read another chunk into the buffer; a
read that returns 0 bytes while the payload is still short is the fatal
"peer sent frame header, then incomplete payload, then hung up" panic,
modelled as `none`.  On success the buffer holds at least `frameLen`
bytes; the unread chunks and the eof flag are returned unchanged. -/
def readPayload (frameLen : Nat) : List (List Nat) → List Nat → Bool →
    Option (List (List Nat) × List Nat × Bool)
  | chunks, buf, eof =>
    if frameLen ≤ buf.length then some (chunks, buf, eof)
    else
      match chunks with
      | [] => none
      | c :: rest =>
        if c.length = 0 then none
        else readPayload frameLen rest (buf ++ c) eof

/-- How a run of the background read loop ends: clean termination at EOF
with an empty buffer (the event queue closes), the
"incomplete frame header then hung up" panic, the
"frame header then incomplete payload then hung up" panic, or the
embedding's out-of-fuel marker (never reached with the entry point's
fuel). -/
inductive TermStatus where
  | cleanEof
  | panicHeader
  | panicPayload
  | outOfFuel
deriving DecidableEq, Repr

/-- The read phase at the top of each loop iteration: if EOF has not been
seen, perform one `read_into` — a returned chunk is appended to the
buffer, a 0-byte read sets the eof flag. -/
def readStep (chunks : List (List Nat)) (buf : List Nat) (eof : Bool) :
    List (List Nat) × List Nat × Bool :=
  if eof then (chunks, buf, true)
  else
    match chunks with
    | [] => ([], buf, true)
    | c :: rest =>
      if c.length = 0 then (rest, buf, true) else (rest, buf ++ c, false)

/-- The background read loop of `Conn::new` (`httpwg`): the input stream
is a list of chunks (one per successful `read_into`; an exhausted list —
or an empty chunk — models a read returning 0, i.e. EOF).  Per iteration:
read one chunk unless EOF was seen; terminate cleanly if EOF and the
buffer is empty; otherwise parse a frame header from the buffered bytes —
on "need more data" either panic (at EOF) or keep reading, on success run
the payload loop, slice off exactly `frame.len` payload bytes
(`take_at_most`), emit the frame event, and continue. -/
def readLoopGo : Nat → List (List Nat) → List Nat → Bool →
    List (Frame × List Nat) → List (Frame × List Nat) × TermStatus
  | 0, _, _, _, events => (events, .outOfFuel)
  | fuel + 1, chunks, buf, eof, events =>
    match readStep chunks buf eof with
    | (chunks2, buf2, eof2) =>
      if eof2 && buf2.isEmpty then (events, .cleanEof)
      else
        match Frame.parse buf2 with
        | .incomplete =>
          if eof2 then (events, .panicHeader)
          else readLoopGo fuel chunks2 buf2 eof2 events
        | .ok frame rest =>
          match readPayload frame.len chunks2 rest eof2 with
          | none => (events, .panicPayload)
          | some (chunks3, buf3, eof3) =>
            readLoopGo fuel chunks3 (buf3.drop frame.len) eof3
              (events ++ [(frame, buf3.take frame.len)])

/-- Entry point of the read loop: empty buffer, EOF not yet seen, no
events, and ample fuel. -/
def readLoop (chunks : List (List Nat)) :
    List (Frame × List Nat) × TermStatus :=
  readLoopGo (chunks.length + chunks.flatten.length + 1) chunks [] false []

/-- How the loop ends as a function of the leftover bytes of the greedy
decomposition: no leftover is clean EOF; a leftover too short for a header
is the incomplete-header panic; a leftover with a complete header (whose
payload is necessarily short) is the incomplete-payload panic. -/
def leftStatus (bytes : List Nat) : TermStatus :=
  if bytes.isEmpty then .cleanEof
  else
    match Frame.parse bytes with
    | .incomplete => .panicHeader
    | .ok _ _ => .panicPayload

theorem Frame.parse_incomplete_iff (bytes : List Nat) :
    Frame.parse bytes = .incomplete ↔ bytes.length < 9 := by
  unfold Frame.parse
  by_cases h : 9 ≤ bytes.length
  · rw [if_pos h]
    constructor
    · intro hc
      exact absurd hc (by simp)
    · intro hc
      omega
  · rw [if_neg h]
    constructor
    · intro _
      omega
    · intro _
      rfl

theorem Frame.parse_ok_inv (bytes : List Nat) (f : Frame) (rest : List Nat)
    (h : Frame.parse bytes = .ok f rest) :
    9 ≤ bytes.length ∧ f = Frame.header bytes ∧ rest = bytes.drop 9 := by
  unfold Frame.parse at h
  by_cases h9 : 9 ≤ bytes.length
  · rw [if_pos h9] at h
    cases h
    exact ⟨h9, rfl, rfl⟩
  · rw [if_neg h9] at h
    exact absurd h (by simp)

/-- Header parsing is prefix-stable: the header decoded from `b` (with at
least 9 bytes) is the same as the one decoded from `b ++ t`, and the
remainders line up. -/
theorem Frame.header_append (b t : List Nat) (h9 : 9 ≤ b.length) :
    Frame.header (b ++ t) = Frame.header b := by
  have hg : ∀ i, i < 9 → (b ++ t).getD i 0 = b.getD i 0 := by
    intro i hi
    exact List.getD_append b t 0 i (by omega)
  unfold Frame.header
  simp only [Frame.mk.injEq]
  rw [hg 0 (by omega), hg 1 (by omega), hg 2 (by omega), hg 3 (by omega),
    hg 4 (by omega), hg 5 (by omega), hg 6 (by omega), hg 7 (by omega),
    hg 8 (by omega)]
  exact ⟨rfl, rfl, rfl, rfl⟩

/-- Header parsing is prefix-stable: the header decoded from `b` (with at
least 9 bytes) is the same as the one decoded from `b ++ t`, and the
remainders line up. -/
theorem Frame.parse_append (b t : List Nat) (f : Frame) (rest : List Nat)
    (hp : Frame.parse b = .ok f rest) :
    Frame.parse (b ++ t) = .ok f (rest ++ t) := by
  obtain ⟨h9, hf, hrest⟩ := Frame.parse_ok_inv b f rest hp
  subst hf
  subst hrest
  unfold Frame.parse
  have hlen : 9 ≤ (b ++ t).length := by
    simp only [List.length_append]
    omega
  rw [if_pos hlen, Frame.header_append b t h9,
    List.drop_append_of_le_length h9]

theorem framesOfGo_fuel_irrel :
    ∀ fuel1 fuel2 (bytes : List Nat), bytes.length < fuel1 →
      bytes.length < fuel2 → framesOfGo fuel1 bytes = framesOfGo fuel2 bytes := by
  intro fuel1
  induction fuel1 with
  | zero =>
    intro fuel2 bytes h1
    omega
  | succ fuel1 ih =>
    intro fuel2 bytes h1 h2
    cases fuel2 with
    | zero => omega
    | succ fuel2 =>
      rw [framesOfGo, framesOfGo]
      cases hp : Frame.parse bytes with
      | incomplete => rfl
      | ok f rest =>
        obtain ⟨h9, hf, hrest⟩ := Frame.parse_ok_inv bytes f rest hp
        dsimp only
        by_cases hl : f.len ≤ rest.length
        · rw [if_pos hl, if_pos hl]
          have hlen2 : (rest.drop f.len).length < fuel1 := by
            subst hrest
            simp only [List.length_drop]
            omega
          have hlen3 : (rest.drop f.len).length < fuel2 := by
            subst hrest
            simp only [List.length_drop]
            omega
          rw [ih fuel2 (rest.drop f.len) hlen2 hlen3]
        · rw [if_neg hl, if_neg hl]

theorem framesOf_incomplete (bytes : List Nat)
    (h : Frame.parse bytes = .incomplete) : framesOf bytes = ([], bytes) := by
  unfold framesOf
  rw [framesOfGo, h]

theorem framesOf_cons (bytes : List Nat) (f : Frame) (rest : List Nat)
    (hp : Frame.parse bytes = .ok f rest) (hl : f.len ≤ rest.length) :
    framesOf bytes =
      ((f, rest.take f.len) :: (framesOf (rest.drop f.len)).1,
        (framesOf (rest.drop f.len)).2) := by
  obtain ⟨h9, hf, hrest⟩ := Frame.parse_ok_inv bytes f rest hp
  unfold framesOf
  rw [framesOfGo, hp]
  dsimp only
  rw [if_pos hl]
  have hfi : framesOfGo bytes.length (rest.drop f.len) =
      framesOfGo ((rest.drop f.len).length + 1) (rest.drop f.len) := by
    apply framesOfGo_fuel_irrel
    · subst hrest
      simp only [List.length_drop]
      omega
    · omega
  rw [hfi]

theorem framesOf_stuck (bytes : List Nat) (f : Frame) (rest : List Nat)
    (hp : Frame.parse bytes = .ok f rest) (hl : rest.length < f.len) :
    framesOf bytes = ([], bytes) := by
  unfold framesOf
  rw [framesOfGo, hp]
  dsimp only
  rw [if_neg (by omega : ¬ f.len ≤ rest.length)]

theorem readStep_spec (chunks : List (List Nat)) (buf : List Nat) (eof : Bool)
    (hch : ∀ c ∈ chunks, c ≠ []) (heof : eof = true → chunks = []) :
    (readStep chunks buf eof).2.1 ++ (readStep chunks buf eof).1.flatten =
      buf ++ chunks.flatten ∧
    (∀ c ∈ (readStep chunks buf eof).1, c ≠ []) ∧
    ((readStep chunks buf eof).2.2 = true → (readStep chunks buf eof).1 = []) ∧
    (readStep chunks buf eof).1.length ≤ chunks.length ∧
    ((readStep chunks buf eof).2.2 = false →
      (readStep chunks buf eof).1.length < chunks.length) := by
  unfold readStep
  cases eof with
  | true =>
    have hc : chunks = [] := heof rfl
    subst hc
    simp
  | false =>
    rw [if_neg (by simp)]
    cases chunks with
    | nil => simp
    | cons c rest =>
      have hc : c ≠ [] := hch c (by simp)
      dsimp only
      rw [if_neg (by simpa using hc)]
      refine ⟨by simp, ?_, by simp, by simp, by simp⟩
      intro x hx
      exact hch x (by simp [hx])

theorem readPayload_some_le (L : Nat) :
    ∀ (chunks : List (List Nat)) (buf : List Nat) (eof : Bool) r,
      readPayload L chunks buf eof = some r → L ≤ r.2.1.length := by
  intro chunks
  induction chunks with
  | nil =>
    intro buf eof r hr
    rw [readPayload] at hr
    by_cases hb : L ≤ buf.length
    · rw [if_pos hb] at hr
      cases hr
      exact hb
    · rw [if_neg hb] at hr
      exact absurd hr (by simp)
  | cons c rest ih =>
    intro buf eof r hr
    rw [readPayload] at hr
    by_cases hb : L ≤ buf.length
    · rw [if_pos hb] at hr
      cases hr
      exact hb
    · rw [if_neg hb] at hr
      by_cases hc : c.length = 0
      · rw [if_pos hc] at hr
        exact absurd hr (by simp)
      · rw [if_neg hc] at hr
        exact ih (buf ++ c) eof r hr

theorem readPayload_enough (L : Nat) :
    ∀ (chunks : List (List Nat)) (buf : List Nat) (eof : Bool),
      (∀ c ∈ chunks, c ≠ []) → L ≤ buf.length + chunks.flatten.length →
      ∃ chunks2 buf2, readPayload L chunks buf eof = some (chunks2, buf2, eof) ∧
        buf2 ++ chunks2.flatten = buf ++ chunks.flatten ∧
        L ≤ buf2.length ∧ (∀ c ∈ chunks2, c ≠ []) ∧
        chunks2.length ≤ chunks.length ∧ (chunks = [] → chunks2 = []) := by
  intro chunks
  induction chunks with
  | nil =>
    intro buf eof _ hle
    simp only [List.flatten_nil, List.length_nil, Nat.add_zero] at hle
    refine ⟨[], buf, ?_, rfl, hle, by simp, by simp, by simp⟩
    rw [readPayload, if_pos hle]
  | cons c rest ih =>
    intro buf eof hch hle
    by_cases hb : L ≤ buf.length
    · refine ⟨c :: rest, buf, ?_, rfl, hb, hch, by simp, by simp⟩
      rw [readPayload, if_pos hb]
    · have hc : c ≠ [] := hch c (by simp)
      have hch2 : ∀ x ∈ rest, x ≠ [] := fun x hx => hch x (by simp [hx])
      have hle2 : L ≤ (buf ++ c).length + rest.flatten.length := by
        simp only [List.length_append]
        simp only [List.flatten_cons, List.length_append] at hle
        omega
      obtain ⟨chunks2, buf2, heq, hflat, hL, hne, hlen, _⟩ :=
        ih (buf ++ c) eof hch2 hle2
      refine ⟨chunks2, buf2, ?_, ?_, hL, hne,
        by simp only [List.length_cons]; omega, by simp⟩
      · rw [readPayload, if_neg hb, if_neg (by simpa using hc)]
        exact heq
      · rw [hflat]
        simp

theorem readLoopGo_payload_len :
    ∀ fuel chunks buf eof events,
      (∀ e ∈ events, e.2.length = e.1.len) →
      ∀ e ∈ (readLoopGo fuel chunks buf eof events).1,
        e.2.length = e.1.len := by
  intro fuel
  induction fuel with
  | zero =>
    intro chunks buf eof events hev
    simpa [readLoopGo] using hev
  | succ fuel ih =>
    intro chunks buf eof events hev
    rw [readLoopGo]
    cases hs : readStep chunks buf eof with
    | mk chunks2 r =>
      obtain ⟨buf2, eof2⟩ := r
      dsimp only
      by_cases hemp : (eof2 && buf2.isEmpty) = true
      · rw [if_pos hemp]
        exact hev
      · rw [if_neg hemp]
        cases hp : Frame.parse buf2 with
        | incomplete =>
          dsimp only
          cases eof2 with
          | true => simpa using hev
          | false =>
            rw [if_neg (by simp)]
            exact ih chunks2 buf2 false events hev
        | ok frame rest =>
          dsimp only
          cases hrp : readPayload frame.len chunks2 rest eof2 with
          | none => exact hev
          | some r3 =>
            obtain ⟨chunks3, buf3, eof3⟩ := r3
            dsimp only
            apply ih
            intro e he
            rcases List.mem_append.mp he with he | he
            · exact hev e he
            · have hL : frame.len ≤ buf3.length :=
                readPayload_some_le frame.len chunks2 rest eof2 _ hrp
              simp at he
              subst he
              simp only [List.length_take]
              omega

/-- C3: every frame event the read loop emits carries a payload whose
length is exactly the frame header's declared payload length, for every
input stream and every chunking of the reads. -/
theorem readLoop_payload_length (chunks : List (List Nat)) :
    ∀ e ∈ (readLoop chunks).1, e.2.length = e.1.len :=
  readLoopGo_payload_len _ _ _ _ _ (by simp)

/-- Witness for `readLoop_payload_length`: a one-chunk stream carrying a
single frame with declared length 1 and payload `[99]`. -/
theorem readLoop_payload_length_witness :
    ((⟨1, 4, 0, 1⟩ : Frame), ([99] : List Nat)).2.length =
      ((⟨1, 4, 0, 1⟩ : Frame), ([99] : List Nat)).1.len :=
  readLoop_payload_length [[0, 0, 1, 4, 0, 0, 0, 0, 1, 99]]
    (⟨1, 4, 0, 1⟩, [99]) (by decide)

/-- C8: on a stream with no bytes at all (the very first read reports 0),
the read loop terminates cleanly — the event queue closes (`cleanEof`,
the loop's `break` which drops the sender) — with zero emitted events. -/
theorem readLoop_empty_stream : readLoop [] = ([], TermStatus.cleanEof) := rfl

theorem readPayload_short (L : Nat) :
    ∀ (chunks : List (List Nat)) (buf : List Nat) (eof : Bool),
      (∀ c ∈ chunks, c ≠ []) → buf.length + chunks.flatten.length < L →
      readPayload L chunks buf eof = none := by
  intro chunks
  induction chunks with
  | nil =>
    intro buf eof _ hlt
    simp only [List.flatten_nil, List.length_nil, Nat.add_zero] at hlt
    rw [readPayload, if_neg (by omega)]
  | cons c rest ih =>
    intro buf eof hch hlt
    have hc : c ≠ [] := hch c (by simp)
    simp only [List.flatten_cons, List.length_append] at hlt
    rw [readPayload, if_neg (by omega), if_neg (by simpa using hc)]
    apply ih (buf ++ c) eof (fun x hx => hch x (by simp [hx]))
    simp only [List.length_append]
    omega

/-- Full characterization of the read loop: with all chunks non-empty (a
read returns 0 only at EOF), the eof-flag invariant, and ample fuel, the
loop emits exactly the complete frames of the greedy decomposition of the
stream's bytes, and terminates with the status determined by the leftover
bytes: clean EOF when nothing is left over, the incomplete-header panic
when fewer than a header's worth is left, the incomplete-payload panic
when a header parsed but its payload never completed. -/
theorem readLoopGo_spec :
    ∀ fuel (chunks : List (List Nat)) (buf : List Nat) (eof : Bool)
      (events : List (Frame × List Nat)),
      (∀ c ∈ chunks, c ≠ []) →
      (eof = true → chunks = []) →
      chunks.length + buf.length + chunks.flatten.length < fuel →
      readLoopGo fuel chunks buf eof events =
        (events ++ (framesOf (buf ++ chunks.flatten)).1,
         leftStatus (framesOf (buf ++ chunks.flatten)).2) := by
  intro fuel
  induction fuel with
  | zero =>
    intro chunks buf eof events _ _ hfuel
    omega
  | succ fuel ih =>
    intro chunks buf eof events hch heof hfuel
    obtain ⟨hflat, hch2, heof2, hlen2, hdec⟩ := readStep_spec chunks buf eof hch heof
    rw [readLoopGo]
    cases hs : readStep chunks buf eof with
    | mk chunks2 r =>
      obtain ⟨buf2, eof2⟩ := r
      rw [hs] at hflat hch2 heof2 hlen2 hdec
      simp only at hflat hch2 heof2 hlen2 hdec
      have hB : buf2 ++ chunks2.flatten = buf ++ chunks.flatten := hflat
      have hBlen : buf2.length + chunks2.flatten.length =
          buf.length + chunks.flatten.length := by
        have := congrArg List.length hB
        simpa using this
      dsimp only
      by_cases hemp : (eof2 && buf2.isEmpty) = true
      · rw [if_pos hemp]
        have he2 : eof2 = true := by
          cases eof2 <;> simp_all
        have hb2 : buf2 = [] := by
          cases buf2 with
          | nil => rfl
          | cons a l => simp [he2] at hemp
        have hc2 : chunks2 = [] := heof2 he2
        have hBnil : buf ++ chunks.flatten = [] := by
          rw [← hB, hb2, hc2]
          rfl
        rw [hBnil,
          show framesOf [] = (([] : List (Frame × List Nat)), ([] : List Nat))
            from rfl]
        simp [leftStatus]
      · rw [if_neg hemp]
        cases hp : Frame.parse buf2 with
        | incomplete =>
          dsimp only
          cases eof2 with
          | true =>
            rw [if_pos rfl]
            have hc2 : chunks2 = [] := heof2 rfl
            have hBb : buf ++ chunks.flatten = buf2 := by
              rw [← hB, hc2]
              simp
            have hb2 : buf2 ≠ [] := by
              intro hcon
              rw [hcon] at hemp
              simp at hemp
            rw [← hBb] at hp hb2
            rw [framesOf_incomplete _ hp]
            unfold leftStatus
            rw [if_neg (by simpa using hb2), hp]
            simp
          | false =>
            rw [if_neg (by simp)]
            rw [ih chunks2 buf2 false events hch2 (by simp) (by
              have h1 : chunks2.length < chunks.length := hdec rfl
              omega)]
            rw [hB]
        | ok frame rest =>
          dsimp only
          obtain ⟨h9, hfh, hrest⟩ := Frame.parse_ok_inv buf2 frame rest hp
          have hpB : Frame.parse (buf ++ chunks.flatten) =
              .ok frame (rest ++ chunks2.flatten) := by
            rw [← hB]
            exact Frame.parse_append buf2 chunks2.flatten frame rest hp
          have hrlen : rest.length = buf2.length - 9 := by
            rw [hrest]
            simp
          cases hrp : readPayload frame.len chunks2 rest eof2 with
          | none =>
            have hshort : rest.length + chunks2.flatten.length < frame.len := by
              by_contra hcon
              push_neg at hcon
              obtain ⟨c3, b3, heq, _⟩ :=
                readPayload_enough frame.len chunks2 rest eof2 hch2 (by omega)
              rw [heq] at hrp
              exact absurd hrp (by simp)
            rw [framesOf_stuck _ frame (rest ++ chunks2.flatten) hpB (by
              simp only [List.length_append]
              omega)]
            unfold leftStatus
            have hBne : ¬ (buf ++ chunks.flatten).isEmpty = true := by
              have h9B : 9 ≤ (buf ++ chunks.flatten).length := by
                simp only [List.length_append]
                omega
              cases hx : buf ++ chunks.flatten with
              | nil => rw [hx] at h9B; simp at h9B
              | cons a l => simp
            rw [if_neg hBne, hpB]
            simp
          | some r3 =>
            obtain ⟨chunks3, buf3, eof3⟩ := r3
            dsimp only
            have havail : frame.len ≤ rest.length + chunks2.flatten.length := by
              by_contra hcon
              push_neg at hcon
              rw [readPayload_short frame.len chunks2 rest eof2 hch2
                (by omega)] at hrp
              exact absurd hrp (by simp)
            obtain ⟨c3, b3, heq, hflat3, hL3, hch3, hlen3, hnil3⟩ :=
              readPayload_enough frame.len chunks2 rest eof2 hch2 (by omega)
            rw [heq] at hrp
            injection hrp with hrp1
            injection hrp1 with hc3 hrp2
            injection hrp2 with hb3 he3
            subst hc3
            subst hb3
            have he3' : eof3 = eof2 := he3.symm
            have hrest2 : b3 ++ c3.flatten = rest ++ chunks2.flatten :=
              hflat3
            have hpay : b3.take frame.len =
                (rest ++ chunks2.flatten).take frame.len := by
              rw [← hrest2]
              exact (List.take_append_of_le_length hL3).symm
            have hdrop3 : (b3.drop frame.len) ++ c3.flatten =
                (rest ++ chunks2.flatten).drop frame.len := by
              rw [← hrest2]
              exact (List.drop_append_of_le_length hL3).symm
            rw [framesOf_cons _ frame (rest ++ chunks2.flatten) hpB (by
              simp only [List.length_append]
              omega)]
            have hfuel3 : c3.length + (b3.drop frame.len).length +
                c3.flatten.length < fuel := by
              have hr2 := congrArg List.length hrest2
              simp only [List.length_append] at hr2
              simp only [List.length_drop]
              omega
            rw [ih c3 (b3.drop frame.len) eof3
              (events ++ [(frame, b3.take frame.len)]) hch3
              (fun hx => hnil3 (heof2 (he3' ▸ hx))) hfuel3]
            rw [hdrop3, hpay]
            simp

/-- C7: for every input stream whose bytes end mid-frame — the greedy
decomposition has non-empty leftover, i.e. EOF arrives while a header is
incomplete or while a parsed header's payload is short — the read loop
aborts with one of the two fatal panics, and the events it emitted are
exactly the complete frames: no frame event is emitted for the partial
frame. -/
theorem readLoop_eof_mid_frame_fatal (chunks : List (List Nat))
    (hch : ∀ c ∈ chunks, c ≠ [])
    (hleft : (framesOf chunks.flatten).2 ≠ []) :
    ((readLoop chunks).2 = .panicHeader ∨
      (readLoop chunks).2 = .panicPayload) ∧
    (readLoop chunks).1 = (framesOf chunks.flatten).1 := by
  unfold readLoop
  rw [readLoopGo_spec _ chunks [] false [] hch (by simp)
    (by simp only [List.length_nil]; omega)]
  simp only [List.nil_append]
  refine ⟨?_, by trivial⟩
  unfold leftStatus
  rw [if_neg (by simpa using hleft)]
  cases Frame.parse (framesOf chunks.flatten).2 with
  | incomplete =>
    left
    rfl
  | ok f r =>
    right
    rfl

/-- Witness for `readLoop_eof_mid_frame_fatal`: a single chunk carrying a
complete header that declares a 2-byte payload but only one payload byte
before EOF. -/
theorem readLoop_eof_mid_frame_fatal_witness :
    (((readLoop [[0, 0, 2, 0, 0, 0, 0, 0, 1, 99]]).2 = .panicHeader ∨
      (readLoop [[0, 0, 2, 0, 0, 0, 0, 0, 1, 99]]).2 = .panicPayload) ∧
    (readLoop [[0, 0, 2, 0, 0, 0, 0, 0, 1, 99]]).1 =
      (framesOf (List.flatten [[0, 0, 2, 0, 0, 0, 0, 0, 1, 99]])).1) :=
  readLoop_eof_mid_frame_fatal [[0, 0, 2, 0, 0, 0, 0, 0, 1, 99]]
    (by decide) (by decide)

/-- `Frame::with_len` of the external codec: replace the header's declared
payload length. -/
def Frame.with_len (f : Frame) (n : Nat) : Frame := { f with len := n }

/-- Modelled from the spec: the codec's frame-header encoder — 9 bytes,
3-byte big-endian length, 1-byte type, 1-byte flags, reserved bit plus
31-bit stream id. -/
def Frame.encodeHeader (f : Frame) : List Nat :=
  [f.len / 65536 % 256, f.len / 256 % 256, f.len % 256, f.frameType, f.flags,
   f.streamId / 16777216 % 128, f.streamId / 65536 % 256,
   f.streamId / 256 % 256, f.streamId % 256]

/-- `Conn::write_frame` from `httpwg`: encode the payload into the scratch
arena (the identity for an already-encoded byte payload, per the spec's
encode contract), fill in the frame header's length field from the encoded
payload's length, encode the header, and submit `[header, payload]` as one
vectored write.  Returns the frame as written and the byte sequence handed
to the transport. -/
def write_frame (frame : Frame) (payload : List Nat) : Frame × List Nat :=
  (frame.with_len payload.length,
    (frame.with_len payload.length).encodeHeader ++ payload)

/-- The SETTINGS frame type tag (0x4) of the protocol. -/
def settingsType : Nat := 4

/-- The ACK flag (0x1) of SETTINGS frames. -/
def ackFlag : Nat := 1

/-- The acknowledgement step of `Conn::handshake` on receiving a non-ACK
SETTINGS frame: the source calls
`write_frame(Frame::new(Settings(Ack), StreamId::CONNECTION), payload)`,
passing along the **received** frame's payload. -/
def handshakeAck (payload : List Nat) : Frame × List Nat :=
  write_frame
    { len := 0, frameType := settingsType, flags := ackFlag, streamId := 0 }
    payload

/-- C4 (code evaluated at the failing input): when the peer's SETTINGS
frame carries a single 6-byte setting `[0, 3, 0, 0, 0, 100]`
(MAX_CONCURRENT_STREAMS = 100), the acknowledgement frame the handshake
writes is a SETTINGS frame with the ACK flag set — but its declared
length is 6, not 0, and the written bytes echo the received payload after
the header, contradicting the claim that the ACK payload is empty
regardless of the received payload. -/
theorem handshakeAck_echoes_payload :
    (handshakeAck [0, 3, 0, 0, 0, 100]).1.len = 6 ∧
    (handshakeAck [0, 3, 0, 0, 0, 100]).1.len ≠ 0 ∧
    (handshakeAck [0, 3, 0, 0, 0, 100]).1.flags = ackFlag ∧
    (handshakeAck [0, 3, 0, 0, 0, 100]).1.frameType = settingsType ∧
    (handshakeAck [0, 3, 0, 0, 0, 100]).2 =
      [0, 0, 6, 4, 1, 0, 0, 0, 0] ++ [0, 3, 0, 0, 0, 100] :=
  ⟨rfl, by decide, rfl, rfl, rfl⟩
